import Mathlib

set_option linter.unusedSectionVars false

/-!
# Verification of the `fdup` duplicate-file finder

Shallow embedding of `src/fdup.rs` (and the shared key extractors of
`src/util.rs`).  The Rust type `Result<K, Option<String>>` is embedded as
`Except (Option String) K`: `.ok k` is a computed key, `.error none` is the
silent-skip outcome (`Err(None)`), `.error (some msg)` is the reported
per-item failure (`Err(Some(msg))`).

The grouping engine `disjoint_by_filter_map` folds the retained
`(key, item)` pairs into a `HashMap<K, Vec<T>>`, pushing each item at the
end of the bucket of its key, and finally keeps the buckets longer than
`threshold`.  The embedding replaces the hash map by an association list
(`insertGroup` below inserts a new key at the end, and pushes at the end of
an existing bucket, exactly as the Rust fold does); the unspecified
iteration order of the hash map is recovered where it matters by quantifying
over permutations of the canonical bucket order.  The parallel
`par_iter().filter_map().collect()` of rayon preserves the input order of
`items`, so the retained pairs are embedded as an order-preserving
`List.filterMap`.
-/

section GroupingEngine

variable {K T : Type} [DecidableEq K] [DecidableEq T]

/-- The retained pair for one item: `Some (key, item)` exactly when the key
function returns `Ok(key)`; both error outcomes are dropped. Mirrors the
closure of the `filter_map` in `disjoint_by_filter_map`
(`src/fdup.rs:93-100`). -/
def toPair (key_f : T → Except (Option String) K) (item : T) : Option (K × T) :=
  match key_f item with
  | .ok key_res => some (key_res, item)
  | .error none => none
  | .error (some _) => none

/-- The intermediate `k_to_t_mapping : Vec<(K, T)>` of
`disjoint_by_filter_map` (`src/fdup.rs:91-101`): the `(key, item)` pairs of
the items whose outcome is `Ok`, in input order (the rayon `collect` into a
`Vec` preserves the order of `items`). -/
def k_to_t_mapping (key_f : T → Except (Option String) K) (items : List T) :
    List (K × T) :=
  items.filterMap (toPair key_f)

/-- The stream of `eprintln!("ERROR with {:?}: {}", item, err)` diagnostics
emitted by `disjoint_by_filter_map` (`src/fdup.rs:97`), one `(item, message)`
element per item whose outcome is `Err(Some(message))`. -/
def diagnostics (key_f : T → Except (Option String) K) (items : List T) :
    List (T × String) :=
  items.filterMap (fun item =>
    match key_f item with
    | .error (some err) => some (item, err)
    | _ => none)

/-- One step of the sequential fold of `disjoint_by_filter_map`
(`src/fdup.rs:107-120`): push `item` at the end of the bucket of `key` if the key
is present, otherwise add the bucket `[item]` for `key`.  The hash map is
embedded as an association list; a fresh key goes to the end of the list. -/
def insertGroup : List (K × List T) → K → T → List (K × List T)
  | [], key, item => [(key, [item])]
  | (k, v) :: rest, key, item =>
    if k = key then (k, v ++ [item]) :: rest
    else (k, v) :: insertGroup rest key item

/-- The grouping map built by the fold of `disjoint_by_filter_map`
(`src/fdup.rs:105-120`), as an association list from key to bucket. -/
def groupFold (pairs : List (K × T)) : List (K × List T) :=
  pairs.foldl (fun acc p => insertGroup acc p.1 p.2) []

/-- The engine `disjoint_by_filter_map` (`src/fdup.rs:75-124`): group `items` by the
key computed by `key_f`, dropping items with `Err` outcomes, and keep only
the groups whose length strictly exceeds `threshold`. -/
def disjoint_by_filter_map (key_f : T → Except (Option String) K)
    (threshold : Nat) (items : List T) : List (List T) :=
  (((groupFold (k_to_t_mapping key_f items)).map Prod.snd).filter
    (fun v => v.length > threshold))

/-- The key of an item when its outcome is `Ok`, and `none` otherwise. -/
def okKey (key_f : T → Except (Option String) K) (item : T) : Option K :=
  match key_f item with
  | .ok k => some k
  | .error _ => none

/-- The key class of `k`: the sublist of `items` whose outcome is `Ok k`. -/
def classOf (key_f : T → Except (Option String) K) (k : K) (items : List T) :
    List T :=
  items.filter (fun t => decide (okKey key_f t = some k))

/-- First-match bucket lookup in the association list. -/
def bucketOf (k : K) : List (K × List T) → List T
  | [] => []
  | p :: rest => if p.1 = k then p.2 else bucketOf k rest

/-- The keys of the association list. -/
def keysOf (acc : List (K × List T)) : List K :=
  acc.map Prod.fst

end GroupingEngine

section FileModel

/-!
The filesystem the key extractors consult.  A `DirEntry` of `walkdir` and a
`PathBuf` both resolve to a path string (the `DirEntry::into_path` step of
`duplicate_files` is the identity in this embedding), and the state of the
entry behind one path is captured by `FileData`: the observable behaviour of
the `metadata`, `open` and `read` calls the two key extractors perform, and
the byte content streamed by successful reads.
-/

/-- Observable filesystem behaviour behind one path: the metadata call
(readable or not, regular file or not, reported length), the open call, the
read loop (all reads succeed, or some read fails with `readMsg`), and the
byte content a successful read sequence delivers. -/
structure FileData where
  isFile : Bool
  metaOk : Bool
  metaMsg : String
  len : Nat
  openOk : Bool
  openMsg : String
  readOk : Bool
  readMsg : String
  content : List Nat
deriving DecidableEq

/-- A filesystem: the `FileData` behind each path. -/
def FileSys : Type := String → FileData

/-- The extractor `filesize` (`src/fdup.rs:47-53`): `Ok(len)` for a regular file with
readable metadata, `Err(None)` for a non-file entry, `Err(Some(msg))` when
the metadata call fails. -/
def filesize (fs : FileSys) (p : String) : Except (Option String) Nat :=
  if (fs p).metaOk then
    if (fs p).isFile then .ok (fs p).len else .error none
  else .error (some (fs p).metaMsg)

/-- The read loop of `checksum` (`src/fdup.rs:32-38`): feed the hasher one
buffer (at most 131072 bytes) at a time until the file is exhausted, then
take the digest of everything fed.  The incremental `sha2` hasher is
idealised as a digest function `sha512` of the concatenation of the fed
chunks; `fed` is the bytes fed so far and `rest` the bytes still to read.
The `Nat` argument bounds the number of loop iterations (the call site
passes `rest.length`, which suffices since every read of a nonempty `rest`
consumes at least one byte); on exhaustion the net effect of the loop — digesting
all remaining bytes — is returned directly. -/
def feedLoop (sha512 : List Nat → List Nat) : Nat → List Nat → List Nat → List Nat
  | _, fed, [] => sha512 fed
  | 0, fed, rest => sha512 (fed ++ rest)
  | fuel + 1, fed, rest => feedLoop sha512 fuel (fed ++ rest.take 131072) (rest.drop 131072)

/-- The extractor `checksum` (`src/fdup.rs:23-41`).  `none` models the
`panic!("failed reading {:?} to buffer {}", ...)` on a read error after a
successful open: the call does not return and the process aborts.
`some (.error (some msg))` is the `Err(Some(msg))` returned when the open
fails, and `some (.ok digest)` the successful digest of the full content. -/
def checksum (sha512 : List Nat → List Nat) (fs : FileSys) (p : String) :
    Option (Except (Option String) (List Nat)) :=
  if (fs p).openOk then
    if (fs p).readOk then
      some (.ok (feedLoop sha512 (fs p).content.length [] (fs p).content))
    else none
  else some (.error (some (fs p).openMsg))

/-- The checksum key function handed to `disjoint_by_filter_map` by
`duplicate_files`.  The default on the `none` (panic) branch is unreachable
in the pipeline: `duplicate_files` only reaches its grouping stage after
establishing that no member of a surviving size group panics. -/
def checksumKey (sha512 : List Nat → List Nat) (fs : FileSys) (p : String) :
    Except (Option String) (List Nat) :=
  (checksum sha512 fs p).getD (.error none)

/-- The panic message of the read loop (`src/fdup.rs:36`). -/
def readPanicMsg (fs : FileSys) (p : String) : String :=
  "failed reading " ++ p ++ " to buffer " ++ (fs p).readMsg

/-- The first stage of `duplicate_files` (`src/fdup.rs:136-137`): group the
walked entries by `filesize` with threshold 1 and resolve each group to its
member paths (`DirEntry::into_path`, the identity here). -/
def sizePass (fs : FileSys) (entries : List String) : List (List String) :=
  disjoint_by_filter_map (filesize fs) 1 entries

/-- Lexicographic sort of the member paths of a group: the `sorted!(vec)` of
`duplicate_files` (`src/fdup.rs:140`).  The comparison is the lexicographic
order on the character lists of the paths — the order of `String`, stated on
`String.data` so that it evaluates on concrete paths. -/
def sortGroup (v : List String) : List String :=
  v.insertionSort (fun a b => a.data ≤ b.data)

/-- The pipeline `duplicate_files` (`src/fdup.rs:126-143`): group the walked entries by
size with threshold 1, re-group every size group by checksum with threshold
1, and optionally sort each final group.  `.error msg` models the abort of
the whole run when hashing some member of a surviving size group panics
mid-read (the panic escapes `checksum`); otherwise `.ok` carries the final
groups.  `entries` stands for the walked candidate list (`WalkDir` with all
walk errors dropped, `src/fdup.rs:128-131`). -/
def duplicate_files (sha512 : List Nat → List Nat) (fs : FileSys)
    (sort_vec : Bool) (entries : List String) :
    Except String (List (List String)) :=
  match ((sizePass fs entries).flatten.find?
      (fun p => (checksum sha512 fs p).isNone)) with
  | some p => .error (readPanicMsg fs p)
  | none =>
    .ok (((sizePass fs entries).flatMap
        (fun set => disjoint_by_filter_map (checksumKey sha512 fs) 1 set)).map
      (fun vec => if sort_vec then sortGroup vec else vec))

end FileModel

section ExampleData

/-!
Concrete fixtures used to witness the theorems below on computable inputs: a
small key function and item list for the generic engine, an identity digest
function (injective, standing in for SHA-512) and a little filesystem
exercising every outcome of the two key extractors.
-/

deriving instance DecidableEq for Except

/-- Example key function: length of the string, with one silently skipped
item and one item failing with a message. -/
def exKey : String → Except (Option String) Nat := fun s =>
  if s = "skip" then .error none
  else if s = "bad" then .error (some "io error") else .ok s.length

/-- Example item list for the grouping engine. -/
def exItems : List String := ["aa", "bb", "c", "skip", "bad"]

/-- Example digest function: the identity (injective). -/
def exSha : List Nat → List Nat := id

/-- Example filesystem.  Field order of `FileData`:
`isFile, metaOk, metaMsg, len, openOk, openMsg, readOk, readMsg, content`. -/
def exFS : FileSys := fun p =>
  if p = "f1" then ⟨true, true, "", 0, true, "", true, "", []⟩
  else if p = "f2" then ⟨true, true, "", 0, true, "", true, "", []⟩
  else if p = "g1" then ⟨true, true, "", 5, true, "", true, "", [1, 2, 3, 4, 5]⟩
  else if p = "g2" then ⟨true, true, "", 5, true, "", true, "", [9, 9, 9, 9, 9]⟩
  else if p = "h1" then ⟨true, true, "", 5, true, "", true, "", [1, 2, 3, 4, 5]⟩
  else if p = "locked" then ⟨true, true, "", 5, false, "open denied", true, "", [1, 2, 3, 4, 5]⟩
  else if p = "torn" then ⟨true, true, "", 5, true, "", false, "read failed", [1, 2, 3, 4, 5]⟩
  else if p = "dir" then ⟨false, true, "", 0, false, "is dir", true, "", []⟩
  else if p = "ghost" then ⟨true, false, "no metadata", 0, false, "gone", true, "", []⟩
  else ⟨false, false, "missing", 0, false, "missing", false, "missing", []⟩

end ExampleData

section GroupingLemmas

variable {K T : Type} [DecidableEq K] [DecidableEq T]
variable {key_f : T → Except (Option String) K}

theorem okKey_eq_some {t : T} {k : K} :
    okKey key_f t = some k ↔ key_f t = .ok k := by
  cases h : key_f t <;> simp [okKey, h]

theorem toPair_eq_some {t : T} {p : K × T} :
    toPair key_f t = some p ↔ key_f t = .ok p.1 ∧ p.2 = t := by
  cases h : key_f t with
  | ok k => cases p with
    | mk k' t' => simp [toPair, h, and_comm, eq_comm]
  | error e => cases e <;> simp [toPair, h]

theorem mem_k_to_t_mapping {items : List T} {p : K × T} :
    p ∈ k_to_t_mapping key_f items ↔ p.2 ∈ items ∧ key_f p.2 = .ok p.1 := by
  simp only [k_to_t_mapping, List.mem_filterMap, toPair_eq_some]
  constructor
  · rintro ⟨a, ha, hk, rfl⟩
    exact ⟨ha, hk⟩
  · rintro ⟨ha, hk⟩
    exact ⟨p.2, ha, hk, rfl⟩

theorem mem_classOf {items : List T} {k : K} {t : T} :
    t ∈ classOf key_f k items ↔ t ∈ items ∧ okKey key_f t = some k := by
  simp [classOf, List.mem_filter]

theorem bucketOf_insertGroup (acc : List (K × List T)) (k' k : K) (t : T) :
    bucketOf k' (insertGroup acc k t) =
      if k' = k then bucketOf k' acc ++ [t] else bucketOf k' acc := by
  induction acc with
  | nil =>
    by_cases h : k' = k
    · simp [insertGroup, bucketOf, h]
    · simp [insertGroup, bucketOf, h, Ne.symm h]
  | cons p rest ih =>
    rcases p with ⟨k0, v⟩
    by_cases h0 : k0 = k
    · subst h0
      by_cases h : k' = k0
      · simp [insertGroup, bucketOf, h]
      · simp [insertGroup, bucketOf, h, Ne.symm h]
    · by_cases h : k' = k0
      · subst h
        simp [insertGroup, bucketOf, h0, Ne.symm h0]
      · simp [insertGroup, bucketOf, h0, Ne.symm h, ih]

theorem mem_keysOf_insertGroup (acc : List (K × List T)) (k' k : K) (t : T) :
    k' ∈ keysOf (insertGroup acc k t) ↔ k' ∈ keysOf acc ∨ k' = k := by
  induction acc with
  | nil => simp [insertGroup, keysOf, eq_comm]
  | cons p rest ih =>
    rcases p with ⟨k0, v⟩
    by_cases h0 : k0 = k
    · subst h0
      simp [insertGroup, keysOf, eq_comm, or_assoc]
      tauto
    · simp [insertGroup, keysOf, h0] at ih ⊢
      tauto

theorem nodup_keysOf_insertGroup (acc : List (K × List T)) (k : K) (t : T)
    (h : (keysOf acc).Nodup) : (keysOf (insertGroup acc k t)).Nodup := by
  induction acc with
  | nil => simp [insertGroup, keysOf]
  | cons p rest ih =>
    rcases p with ⟨k0, v⟩
    simp only [keysOf, List.map_cons, List.nodup_cons] at h
    by_cases h0 : k0 = k
    · subst h0
      simpa [insertGroup, keysOf, List.nodup_cons] using h
    · have hnot : k0 ∉ keysOf (insertGroup rest k t) := by
        rw [mem_keysOf_insertGroup]
        rintro (hc | rfl)
        · exact h.1 hc
        · exact h0 rfl
      have hres : keysOf (insertGroup ((k0, v) :: rest) k t) =
          k0 :: keysOf (insertGroup rest k t) := by
        simp [insertGroup, keysOf, h0]
      rw [hres, List.nodup_cons]
      exact ⟨hnot, ih h.2⟩

theorem bucketOf_foldl (l : List (K × T)) (acc : List (K × List T)) (k : K) :
    bucketOf k (l.foldl (fun a p => insertGroup a p.1 p.2) acc) =
      bucketOf k acc ++ ((l.filter (fun p => decide (p.1 = k))).map Prod.snd) := by
  induction l generalizing acc with
  | nil => simp
  | cons p l ih =>
    simp only [List.foldl_cons]
    rw [ih, bucketOf_insertGroup]
    by_cases h : p.1 = k
    · simp [List.filter_cons, h]
    · simp [List.filter_cons, h, Ne.symm h]

theorem mem_keysOf_foldl (l : List (K × T)) (acc : List (K × List T)) (k : K) :
    k ∈ keysOf (l.foldl (fun a p => insertGroup a p.1 p.2) acc) ↔
      k ∈ keysOf acc ∨ k ∈ l.map Prod.fst := by
  induction l generalizing acc with
  | nil => simp
  | cons p l ih =>
    simp only [List.foldl_cons, List.map_cons, List.mem_cons]
    rw [ih, mem_keysOf_insertGroup]
    tauto

theorem nodup_keysOf_foldl (l : List (K × T)) (acc : List (K × List T))
    (h : (keysOf acc).Nodup) :
    (keysOf (l.foldl (fun a p => insertGroup a p.1 p.2) acc)).Nodup := by
  induction l generalizing acc with
  | nil => exact h
  | cons p l ih =>
    simp only [List.foldl_cons]
    exact ih _ (nodup_keysOf_insertGroup _ _ _ h)

theorem bucketOf_eq_of_mem {acc : List (K × List T)} (h : (keysOf acc).Nodup)
    {k : K} {g : List T} (hmem : (k, g) ∈ acc) : bucketOf k acc = g := by
  induction acc with
  | nil => cases hmem
  | cons p rest ih =>
    rcases p with ⟨k0, v⟩
    simp only [keysOf, List.map_cons, List.nodup_cons] at h
    rcases List.mem_cons.mp hmem with heq | hrest
    · cases heq
      simp [bucketOf]
    · have hk0 : k0 ≠ k := by
        rintro rfl
        exact h.1 (by simpa [keysOf] using List.mem_map_of_mem Prod.fst hrest)
      simp [bucketOf, hk0, ih h.2 hrest]

theorem mem_of_bucketOf {acc : List (K × List T)} {k : K}
    (h : k ∈ keysOf acc) : (k, bucketOf k acc) ∈ acc := by
  induction acc with
  | nil => simp [keysOf] at h
  | cons p rest ih =>
    rcases p with ⟨k0, v⟩
    by_cases hk : k0 = k
    · subst hk
      simp [bucketOf]
    · have : k ∈ keysOf rest := by
        simpa [keysOf, Ne.symm hk] using h
      simpa [bucketOf, hk] using Or.inr (ih this)

end GroupingLemmas

section Characterization

variable {K T : Type} [DecidableEq K] [DecidableEq T]
variable {key_f : T → Except (Option String) K}

theorem filter_k_to_t_mapping (items : List T) (k : K) :
    ((k_to_t_mapping key_f items).filter (fun p => decide (p.1 = k))).map Prod.snd
      = classOf key_f k items := by
  induction items with
  | nil => rfl
  | cons t items ih =>
    cases h : key_f t with
    | ok k0 =>
      by_cases hk : k0 = k
      · subst hk
        simpa [k_to_t_mapping, List.filterMap_cons, toPair, h, classOf,
          List.filter_cons, okKey] using ih
      · simpa [k_to_t_mapping, List.filterMap_cons, toPair, h, classOf,
          List.filter_cons, okKey, hk] using ih
    | error e =>
      cases e <;>
        simpa [k_to_t_mapping, List.filterMap_cons, toPair, h, classOf,
          List.filter_cons, okKey] using ih

theorem mem_keys_k_to_t_mapping {items : List T} {k : K} :
    k ∈ (k_to_t_mapping key_f items).map Prod.fst ↔
      ∃ t ∈ items, okKey key_f t = some k := by
  constructor
  · intro hk
    rcases List.mem_map.mp hk with ⟨p, hp, rfl⟩
    rcases mem_k_to_t_mapping.mp hp with ⟨hmem, hok⟩
    exact ⟨p.2, hmem, okKey_eq_some.mpr hok⟩
  · rintro ⟨t, ht, hok⟩
    exact List.mem_map.mpr
      ⟨(k, t), mem_k_to_t_mapping.mpr ⟨ht, okKey_eq_some.mp hok⟩, rfl⟩

theorem bucketOf_groupFold (items : List T) (k : K) :
    bucketOf k (groupFold (k_to_t_mapping key_f items)) = classOf key_f k items := by
  rw [groupFold, bucketOf_foldl]
  simpa [bucketOf] using filter_k_to_t_mapping items k

theorem nodup_keysOf_groupFold (pairs : List (K × T)) :
    (keysOf (groupFold pairs)).Nodup :=
  nodup_keysOf_foldl pairs [] (by simp [keysOf])

theorem groupFold_pair_char {items : List T} {p : K × List T}
    (hp : p ∈ groupFold (k_to_t_mapping key_f items)) :
    p.2 = classOf key_f p.1 items ∧ ∃ t ∈ items, okKey key_f t = some p.1 := by
  have hnd := nodup_keysOf_groupFold (k_to_t_mapping key_f items)
  have hb : bucketOf p.1 (groupFold (k_to_t_mapping key_f items)) = p.2 := by
    rcases p with ⟨k, g⟩
    exact bucketOf_eq_of_mem hnd hp
  have hkey : p.1 ∈ keysOf (groupFold (k_to_t_mapping key_f items)) :=
    List.mem_map_of_mem Prod.fst hp
  have hkeys : p.1 ∈ (k_to_t_mapping key_f items).map Prod.fst := by
    have := (mem_keysOf_foldl (k_to_t_mapping key_f items) [] p.1).mp hkey
    simpa [keysOf] using this
  exact ⟨by rw [← hb, bucketOf_groupFold], mem_keys_k_to_t_mapping.mp hkeys⟩

theorem mem_disjoint_by_filter_map {th : Nat} {items : List T} {g : List T} :
    g ∈ disjoint_by_filter_map key_f th items ↔
      ∃ k, (∃ t ∈ items, okKey key_f t = some k) ∧
        g = classOf key_f k items ∧ th < g.length := by
  unfold disjoint_by_filter_map
  rw [List.mem_filter]
  constructor
  · rintro ⟨hmap, hlen⟩
    rcases List.mem_map.mp hmap with ⟨p, hp, rfl⟩
    rcases groupFold_pair_char hp with ⟨hcls, hex⟩
    exact ⟨p.1, hex, hcls, by simpa using hlen⟩
  · rintro ⟨k, hex, rfl, hlen⟩
    have hkeys : k ∈ (k_to_t_mapping key_f items).map Prod.fst :=
      mem_keys_k_to_t_mapping.mpr hex
    have hkey : k ∈ keysOf (groupFold (k_to_t_mapping key_f items)) := by
      rw [groupFold, mem_keysOf_foldl]
      exact Or.inr hkeys
    have hmem := mem_of_bucketOf hkey
    rw [bucketOf_groupFold] at hmem
    exact ⟨List.mem_map.mpr ⟨(k, classOf key_f k items), hmem, rfl⟩, by simpa using hlen⟩

theorem classOf_mem_disjoint_by_filter_map {th : Nat} {items : List T} {k : K}
    (hex : ∃ t ∈ items, okKey key_f t = some k)
    (hlen : th < (classOf key_f k items).length) :
    classOf key_f k items ∈ disjoint_by_filter_map key_f th items :=
  mem_disjoint_by_filter_map.mpr ⟨k, hex, rfl, hlen⟩

theorem pairwise_disjoint_groups (th : Nat) (items : List T) :
    (disjoint_by_filter_map key_f th items).Pairwise List.Disjoint := by
  have hnd := nodup_keysOf_groupFold (k_to_t_mapping key_f items)
  have hpw : (groupFold (k_to_t_mapping key_f items)).Pairwise
      (fun p q => p.1 ≠ q.1) := by
    rw [keysOf, List.Nodup] at hnd
    exact List.pairwise_map.mp hnd
  have hpw2 : (groupFold (k_to_t_mapping key_f items)).Pairwise
      (fun p q => List.Disjoint p.2 q.2) := by
    refine List.Pairwise.imp_of_mem ?_ hpw
    intro p q hp hq hne t htp htq
    rcases groupFold_pair_char hp with ⟨hcp, -⟩
    rcases groupFold_pair_char hq with ⟨hcq, -⟩
    rw [hcp] at htp
    rw [hcq] at htq
    exact hne (Option.some.inj
      ((mem_classOf.mp htp).2.symm.trans (mem_classOf.mp htq).2))
  exact (List.pairwise_map.mpr hpw2).filter _

theorem nodup_flatten_groups {th : Nat} {items : List T} (h : items.Nodup) :
    (disjoint_by_filter_map key_f th items).flatten.Nodup := by
  rw [List.nodup_flatten]
  constructor
  · intro g hg
    rcases mem_disjoint_by_filter_map.mp hg with ⟨k, -, rfl, -⟩
    exact h.filter _
  · exact pairwise_disjoint_groups th items

end Characterization

section CountLemmas

variable {K T : Type} [DecidableEq K] [DecidableEq T]
variable {key_f : T → Except (Option String) K}

theorem classOf_cons (a : T) (l : List T) (k : K) :
    classOf key_f k (a :: l) =
      if okKey key_f a = some k then a :: classOf key_f k l
      else classOf key_f k l := by
  by_cases h : okKey key_f a = some k <;> simp [classOf, List.filter_cons, h]

theorem count_classOf (items : List T) (k : K) (t : T) :
    (classOf key_f k items).count t =
      if okKey key_f t = some k then items.count t else 0 := by
  induction items with
  | nil => simp [classOf]
  | cons a l ih =>
    rw [classOf_cons]
    by_cases ha : okKey key_f a = some k
    · by_cases hat : a = t
      · subst hat
        simp [ha, List.count_cons, ih]
      · simp [ha, List.count_cons, hat, ih]
    · by_cases hat : a = t
      · subst hat
        simp [ha, List.count_cons, ih]
      · simp [ha, List.count_cons, hat, ih]

theorem count_flatten_of_classes {items : List T} {pairs : List (K × List T)}
    (hg : ∀ p ∈ pairs, p.2 = classOf key_f p.1 items) (t : T) :
    (pairs.map Prod.snd).flatten.count t =
      ((pairs.map Prod.fst).countP (fun k => decide (okKey key_f t = some k)))
        * items.count t := by
  induction pairs with
  | nil => simp
  | cons p rest ih =>
    have hp := hg p (List.mem_cons_self p rest)
    simp only [List.map_cons, List.flatten_cons, List.count_append,
      List.countP_cons]
    rw [ih (fun q hq => hg q (List.mem_cons_of_mem p hq)), hp, count_classOf]
    by_cases h : okKey key_f t = some p.1
    · simp [h, Nat.add_mul, Nat.add_comm]
    · simp [h]

theorem countP_eq_ite_of_nodup {l : List K} (hnd : l.Nodup) (k0 : K) :
    l.countP (fun k => decide (k0 = k)) = if k0 ∈ l then 1 else 0 := by
  induction l with
  | nil => simp
  | cons a l ih =>
    simp only [List.countP_cons, List.nodup_cons] at *
    by_cases h : k0 = a
    · subst h
      have : k0 ∉ l := hnd.1
      simp [ih hnd.2, this]
    · simp [h, ih hnd.2, Ne.symm h]

theorem mem_keys_emitted {th : Nat} {items : List T} {k : K} :
    k ∈ (((groupFold (k_to_t_mapping key_f items)).filter
        (fun p => decide (th < p.2.length))).map Prod.fst) ↔
      (∃ t ∈ items, okKey key_f t = some k) ∧
        th < (classOf key_f k items).length := by
  constructor
  · intro hk
    rcases List.mem_map.mp hk with ⟨p, hp, rfl⟩
    rcases List.mem_filter.mp hp with ⟨hpf, hlen⟩
    rcases groupFold_pair_char hpf with ⟨hcls, hex⟩
    refine ⟨hex, ?_⟩
    rw [← hcls]
    simpa using hlen
  · rintro ⟨hex, hlen⟩
    have hkeys : k ∈ (k_to_t_mapping key_f items).map Prod.fst :=
      mem_keys_k_to_t_mapping.mpr hex
    have hkey : k ∈ keysOf (groupFold (k_to_t_mapping key_f items)) := by
      rw [groupFold, mem_keysOf_foldl]
      exact Or.inr hkeys
    have hmem := mem_of_bucketOf hkey
    rw [bucketOf_groupFold] at hmem
    exact List.mem_map.mpr
      ⟨(k, classOf key_f k items), List.mem_filter.mpr ⟨hmem, by simpa using hlen⟩, rfl⟩

theorem count_flatten_disjoint_by_filter_map (th : Nat) (items : List T) (t : T) :
    (disjoint_by_filter_map key_f th items).flatten.count t =
      match okKey key_f t with
      | some k => if th < (classOf key_f k items).length then items.count t else 0
      | none => 0 := by
  have hfm : disjoint_by_filter_map key_f th items =
      ((groupFold (k_to_t_mapping key_f items)).filter
        (fun p => decide (th < p.2.length))).map Prod.snd := by
    unfold disjoint_by_filter_map
    rw [List.filter_map]
    rfl
  rw [hfm, count_flatten_of_classes (fun p hp =>
    (groupFold_pair_char (List.mem_filter.mp hp).1).1) t]
  cases hok : okKey key_f t with
  | none =>
    have hz : ((((groupFold (k_to_t_mapping key_f items)).filter
        (fun p => decide (th < p.2.length))).map Prod.fst).countP
          (fun k => decide ((none : Option K) = some k))) = 0 := by
      rw [List.countP_eq_zero]
      intro a _
      simp
    rw [hz, Nat.zero_mul]
  | some k0 =>
    have hnd : (((groupFold (k_to_t_mapping key_f items)).filter
        (fun p => decide (th < p.2.length))).map Prod.fst).Nodup := by
      have h1 := nodup_keysOf_groupFold (k_to_t_mapping key_f items)
      rw [keysOf, List.Nodup, List.pairwise_map] at h1
      rw [List.Nodup, List.pairwise_map]
      exact h1.filter _
    have hcnt : ((((groupFold (k_to_t_mapping key_f items)).filter
        (fun p => decide (th < p.2.length))).map Prod.fst).countP
          (fun k => decide (some k0 = some k))) =
        if k0 ∈ (((groupFold (k_to_t_mapping key_f items)).filter
          (fun p => decide (th < p.2.length))).map Prod.fst) then 1 else 0 := by
      rw [← countP_eq_ite_of_nodup hnd k0]
      apply List.countP_congr
      intro a _
      simp
    rw [hcnt]
    by_cases ht : t ∈ items
    · have hkmem : k0 ∈ (((groupFold (k_to_t_mapping key_f items)).filter
          (fun p => decide (th < p.2.length))).map Prod.fst) ↔
            th < (classOf key_f k0 items).length := by
        rw [mem_keys_emitted]
        constructor
        · rintro ⟨-, h⟩
          exact h
        · intro h
          exact ⟨⟨t, ht, hok⟩, h⟩
      by_cases hbig : th < (classOf key_f k0 items).length
      · simp [hkmem.mpr hbig, hbig]
      · have hnm : ¬ k0 ∈ (((groupFold (k_to_t_mapping key_f items)).filter
            (fun p => decide (th < p.2.length))).map Prod.fst) := fun h =>
          hbig (hkmem.mp h)
        simp [hnm, hbig]
    · have hz : items.count t = 0 := List.count_eq_zero_of_not_mem ht
      rw [hz, Nat.mul_zero]
      by_cases hbig : th < (classOf key_f k0 items).length <;> simp [hbig]

end CountLemmas

section PipelineLemmas

theorem feedLoop_eq (sha512 : List Nat → List Nat) :
    ∀ (fuel : Nat) (fed rest : List Nat),
      feedLoop sha512 fuel fed rest = sha512 (fed ++ rest) := by
  intro fuel
  induction fuel with
  | zero =>
    intro fed rest
    cases rest <;> simp [feedLoop]
  | succ n ih =>
    intro fed rest
    cases rest with
    | nil => simp [feedLoop]
    | cons b bs =>
      rw [feedLoop, ih, List.append_assoc, List.take_append_drop]
      simp

theorem okKey_filesize {fs : FileSys} {p : String} {n : Nat} :
    okKey (filesize fs) p = some n ↔
      (fs p).metaOk = true ∧ (fs p).isFile = true ∧ n = (fs p).len := by
  by_cases h1 : (fs p).metaOk <;> by_cases h2 : (fs p).isFile <;>
    simp [okKey, filesize, h1, h2, eq_comm]

theorem checksum_of_readable {sha512 : List Nat → List Nat} {fs : FileSys}
    {p : String} (h1 : (fs p).openOk = true) (h2 : (fs p).readOk = true) :
    checksum sha512 fs p = some (.ok (sha512 (fs p).content)) := by
  simp [checksum, h1, h2, feedLoop_eq]

theorem okKey_checksumKey {sha512 : List Nat → List Nat} {fs : FileSys}
    {p : String} {d : List Nat} :
    okKey (checksumKey sha512 fs) p = some d ↔
      (fs p).openOk = true ∧ (fs p).readOk = true ∧ d = sha512 (fs p).content := by
  by_cases h1 : (fs p).openOk <;> by_cases h2 : (fs p).readOk <;>
    simp [okKey, checksumKey, checksum, h1, h2, feedLoop_eq, eq_comm]

theorem duplicate_files_ok {sha512 : List Nat → List Nat} {fs : FileSys}
    {sv : Bool} {entries : List String} {out : List (List String)}
    (h : duplicate_files sha512 fs sv entries = .ok out) :
    out = ((sizePass fs entries).flatMap
        (fun set => disjoint_by_filter_map (checksumKey sha512 fs) 1 set)).map
      (fun vec => if sv then sortGroup vec else vec) := by
  unfold duplicate_files at h
  cases hf : (sizePass fs entries).flatten.find?
      (fun q => (checksum sha512 fs q).isNone) with
  | some q => rw [hf] at h; cases h
  | none => rw [hf] at h; exact (Except.ok.inj h).symm

theorem duplicate_files_panics {sha512 : List Nat → List Nat} {fs : FileSys}
    {sv : Bool} {entries : List String} {p : String}
    (hp : p ∈ (sizePass fs entries).flatten)
    (hnone : checksum sha512 fs p = none) :
    ∃ m, duplicate_files sha512 fs sv entries = .error m := by
  unfold duplicate_files
  cases hf : (sizePass fs entries).flatten.find?
      (fun q => (checksum sha512 fs q).isNone) with
  | some q => exact ⟨readPanicMsg fs q, rfl⟩
  | none =>
    rw [List.find?_eq_none] at hf
    have := hf p hp
    rw [hnone] at this
    simp at this

end PipelineLemmas

section MoreLemmas

variable {K T : Type} [DecidableEq K] [DecidableEq T]
variable {key_f : T → Except (Option String) K}

theorem mem_flatten_disjoint_by_filter_map {th : Nat} {items : List T} {t : T} :
    t ∈ (disjoint_by_filter_map key_f th items).flatten ↔
      t ∈ items ∧ ∃ k, okKey key_f t = some k ∧
        th < (classOf key_f k items).length := by
  rw [List.mem_flatten]
  constructor
  · rintro ⟨g, hg, htg⟩
    rcases mem_disjoint_by_filter_map.mp hg with ⟨k, -, rfl, hlen⟩
    rcases mem_classOf.mp htg with ⟨hti, hok⟩
    exact ⟨hti, k, hok, hlen⟩
  · rintro ⟨hti, k, hok, hlen⟩
    exact ⟨classOf key_f k items,
      classOf_mem_disjoint_by_filter_map ⟨t, hti, hok⟩ hlen,
      mem_classOf.mpr ⟨hti, hok⟩⟩

theorem mem_diagnostics {items : List T} {t : T} {m : String} :
    (t, m) ∈ diagnostics key_f items ↔ t ∈ items ∧ key_f t = .error (some m) := by
  simp only [diagnostics, List.mem_filterMap]
  constructor
  · rintro ⟨a, ha, heq⟩
    cases h : key_f a with
    | ok k => rw [h] at heq; cases heq
    | error e =>
      cases e with
      | none => rw [h] at heq; cases heq
      | some msg =>
        rw [h] at heq
        obtain ⟨rfl, rfl⟩ := Prod.mk.inj (Option.some.inj heq)
        exact ⟨ha, h⟩
  · rintro ⟨ht, hk⟩
    exact ⟨t, ht, by rw [hk]⟩

theorem one_lt_length_of_mem_ne {α : Type} {a b : α} {l : List α}
    (ha : a ∈ l) (hb : b ∈ l) (hne : a ≠ b) : 1 < l.length := by
  cases l with
  | nil => cases ha
  | cons x xs =>
    cases xs with
    | nil =>
      simp only [List.mem_singleton] at ha hb
      exact absurd (ha.trans hb.symm) hne
    | cons y ys => simp [List.length]

end MoreLemmas

section Claims

/-- C1. For every finite item list, key function, and threshold, the
groups returned by `disjoint_by_filter_map` are pairwise disjoint in
membership; no item appears twice (a duplicate-free input yields a
duplicate-free union of groups, and in general the output multiplicity of
an item equals its input multiplicity exactly when it is covered — the count
conjunct); any two items placed in the same group have equal keys; any two
items with equal keys and `Ok` outcomes whose key class exceeds the
threshold end up in the same group; and the groups cover exactly the subset
of input items whose outcome is `Ok` and whose key class size strictly
exceeds the threshold. -/
theorem C1_grouping_partition {K T : Type} [DecidableEq K] [DecidableEq T]
    (key_f : T → Except (Option String) K) (threshold : Nat) (items : List T) :
    (disjoint_by_filter_map key_f threshold items).Pairwise List.Disjoint
    ∧ (items.Nodup → (disjoint_by_filter_map key_f threshold items).flatten.Nodup)
    ∧ (∀ g ∈ disjoint_by_filter_map key_f threshold items,
        ∀ t1 ∈ g, ∀ t2 ∈ g, okKey key_f t1 = okKey key_f t2)
    ∧ (∀ t1 ∈ items, ∀ t2 ∈ items, ∀ k : K,
        okKey key_f t1 = some k → okKey key_f t2 = some k →
        threshold < (classOf key_f k items).length →
        ∃ g ∈ disjoint_by_filter_map key_f threshold items, t1 ∈ g ∧ t2 ∈ g)
    ∧ (∀ t, (disjoint_by_filter_map key_f threshold items).flatten.count t =
        match okKey key_f t with
        | some k =>
          if threshold < (classOf key_f k items).length then items.count t else 0
        | none => 0)
    ∧ (∀ t, t ∈ (disjoint_by_filter_map key_f threshold items).flatten ↔
        t ∈ items ∧ ∃ k, okKey key_f t = some k ∧
          threshold < (classOf key_f k items).length) := by
  refine ⟨pairwise_disjoint_groups threshold items,
    fun h => nodup_flatten_groups h, ?_, ?_, ?_, ?_⟩
  · intro g hg t1 h1 t2 h2
    rcases mem_disjoint_by_filter_map.mp hg with ⟨k, -, rfl, -⟩
    rw [(mem_classOf.mp h1).2, (mem_classOf.mp h2).2]
  · intro t1 h1 t2 h2 k hk1 hk2 hlen
    exact ⟨classOf key_f k items,
      classOf_mem_disjoint_by_filter_map ⟨t1, h1, hk1⟩ hlen,
      mem_classOf.mpr ⟨h1, hk1⟩, mem_classOf.mpr ⟨h2, hk2⟩⟩
  · exact count_flatten_disjoint_by_filter_map threshold items
  · intro t
    exact mem_flatten_disjoint_by_filter_map

/-- Closed instance of C1: on the example data the partition facts hold at
concrete inputs; every hypothesis is discharged by evaluation. -/
theorem C1_grouping_partition_witness :
    (disjoint_by_filter_map exKey 1 exItems).flatten.Nodup
    ∧ (∃ g ∈ disjoint_by_filter_map exKey 1 exItems, "aa" ∈ g ∧ "bb" ∈ g) :=
  ⟨(C1_grouping_partition exKey 1 exItems).2.1 (by decide),
   (C1_grouping_partition exKey 1 exItems).2.2.2.1 "aa" (by decide) "bb" (by decide)
     2 (by decide) (by decide) (by decide)⟩

/-- C3. A key class with exactly `threshold` items with `Ok` outcomes is
entirely absent from the output of `disjoint_by_filter_map` (not emitted as
a smaller group), and a class with exactly `threshold + 1` such items is
emitted, containing all of them. -/
theorem C3_threshold_boundary {K T : Type} [DecidableEq K] [DecidableEq T]
    (key_f : T → Except (Option String) K) (threshold : Nat) (items : List T)
    (k : K) :
    ((classOf key_f k items).length = threshold →
      ∀ t ∈ items, okKey key_f t = some k →
        t ∉ (disjoint_by_filter_map key_f threshold items).flatten)
    ∧ ((classOf key_f k items).length = threshold + 1 →
      classOf key_f k items ∈ disjoint_by_filter_map key_f threshold items
      ∧ ∀ t ∈ items, okKey key_f t = some k → t ∈ classOf key_f k items) := by
  constructor
  · intro hlen t ht hok hmem
    rcases (mem_flatten_disjoint_by_filter_map.mp hmem).2 with ⟨k', hok', hbig⟩
    rw [hok] at hok'
    cases Option.some.inj hok'
    rw [hlen] at hbig
    exact Nat.lt_irrefl threshold hbig
  · intro hlen
    have hne : classOf key_f k items ≠ [] := by
      intro h
      rw [h] at hlen
      cases hlen
    rcases List.exists_mem_of_ne_nil _ hne with ⟨t, htc⟩
    rcases mem_classOf.mp htc with ⟨hti, hok⟩
    refine ⟨classOf_mem_disjoint_by_filter_map ⟨t, hti, hok⟩ ?_,
      fun u hu hku => mem_classOf.mpr ⟨hu, hku⟩⟩
    rw [hlen]
    exact Nat.lt_succ_self threshold

/-- Closed instance of C3: the class `{"aa","bb"}` (size 2) is dropped in
full at threshold 2 and emitted in full at threshold 1. -/
theorem C3_threshold_boundary_witness :
    "aa" ∉ (disjoint_by_filter_map exKey 2 exItems).flatten
    ∧ classOf exKey 2 exItems ∈ disjoint_by_filter_map exKey 1 exItems :=
  ⟨(C3_threshold_boundary exKey 2 exItems 2).1 (by decide) "aa" (by decide)
     (by decide),
   ((C3_threshold_boundary exKey 1 exItems 2).2 (by decide)).1⟩

/-- C10. Every group returned by `disjoint_by_filter_map` lists its
members in the relative order in which they occur in the input (each group
is a sublist of the input): the parallel key-extraction phase collects
pairs in input order and the sequential fold appends in that order. -/
theorem C10_group_order {K T : Type} [DecidableEq K] [DecidableEq T]
    (key_f : T → Except (Option String) K) (threshold : Nat) (items : List T) :
    ∀ g ∈ disjoint_by_filter_map key_f threshold items, g.Sublist items := by
  intro g hg
  rcases mem_disjoint_by_filter_map.mp hg with ⟨k, -, rfl, -⟩
  exact List.filter_sublist items

/-- Closed instance of C10 at a concrete group of the example data. -/
theorem C10_group_order_witness : List.Sublist ["aa", "bb"] exItems :=
  C10_group_order exKey 1 exItems ["aa", "bb"] (by decide)
/-- C5. Per-item outcome handling of `disjoint_by_filter_map`: an
`Ok(key)` outcome retains the `(key, item)` pair; a `Skip` (`Err(None)`)
outcome drops the item silently, with no diagnostic; a `Fail(message)`
(`Err(Some(message))`) outcome emits a diagnostic naming the item and the
message and drops the item; a dropped item is never grouped with others
under any fallback or default key. -/
theorem C5_outcome_handling {K T : Type} [DecidableEq K] [DecidableEq T]
    (key_f : T → Except (Option String) K) (threshold : Nat) (items : List T)
    (t : T) (ht : t ∈ items) :
    (∀ k, key_f t = .ok k → (k, t) ∈ k_to_t_mapping key_f items)
    ∧ (key_f t = .error none →
        (∀ m, (t, m) ∉ diagnostics key_f items)
        ∧ ∀ p ∈ k_to_t_mapping key_f items, p.2 ≠ t)
    ∧ (∀ msg, key_f t = .error (some msg) →
        (t, msg) ∈ diagnostics key_f items
        ∧ ∀ p ∈ k_to_t_mapping key_f items, p.2 ≠ t)
    ∧ ((∀ k, key_f t ≠ .ok k) →
        t ∉ (disjoint_by_filter_map key_f threshold items).flatten) := by
  refine ⟨?_, ?_, ?_, ?_⟩
  · intro k hk
    exact mem_k_to_t_mapping.mpr ⟨ht, hk⟩
  · intro hskip
    constructor
    · intro m hm
      rw [(mem_diagnostics.mp hm).2] at hskip
      cases hskip
    · intro p hp hpt
      have := (mem_k_to_t_mapping.mp hp).2
      rw [hpt, hskip] at this
      cases this
  · intro msg hfail
    refine ⟨mem_diagnostics.mpr ⟨ht, hfail⟩, ?_⟩
    intro p hp hpt
    have := (mem_k_to_t_mapping.mp hp).2
    rw [hpt, hfail] at this
    cases this
  · intro hnotok hmem
    rcases (mem_flatten_disjoint_by_filter_map.mp hmem).2 with ⟨k, hok, -⟩
    exact hnotok k (okKey_eq_some.mp hok)

/-- Closed instance of C5: the failing item of the example data produces its
diagnostic and appears in no group; the skipped item produces none. -/
theorem C5_outcome_handling_witness :
    ("bad", "io error") ∈ diagnostics exKey exItems
    ∧ "bad" ∉ (disjoint_by_filter_map exKey 1 exItems).flatten
    ∧ (∀ m, ("skip", m) ∉ diagnostics exKey exItems) :=
  ⟨((C5_outcome_handling exKey 1 exItems "bad" (by decide)).2.2.1 "io error"
      (by decide)).1,
   (C5_outcome_handling exKey 1 exItems "bad" (by decide)).2.2.2
     (fun k hk => by simp [exKey] at hk),
   ((C5_outcome_handling exKey 1 exItems "skip" (by decide)).2.1 (by decide)).1⟩

/-- C8. The failure of one item never affects the grouping of other items:
removing an item whose outcome is not `Ok` leaves the output of
`disjoint_by_filter_map` unchanged, and in particular among `N` items of one
key class of which one fails, the group of the remaining `N - 1` is still
emitted in full whenever `N - 1` exceeds the threshold. -/
theorem C8_failure_isolation {K T : Type} [DecidableEq K] [DecidableEq T]
    (key_f : T → Except (Option String) K) (threshold : Nat)
    (l1 l2 : List T) (t0 : T) (h : ∀ k, key_f t0 ≠ .ok k) :
    disjoint_by_filter_map key_f threshold (l1 ++ t0 :: l2)
      = disjoint_by_filter_map key_f threshold (l1 ++ l2)
    ∧ ∀ k, threshold < (classOf key_f k (l1 ++ l2)).length →
        classOf key_f k (l1 ++ l2)
          ∈ disjoint_by_filter_map key_f threshold (l1 ++ t0 :: l2) := by
  have hpair : toPair key_f t0 = none := by
    cases hk : key_f t0 with
    | ok k => exact absurd hk (h k)
    | error e => cases e <;> simp [toPair, hk]
  have hmap : k_to_t_mapping key_f (l1 ++ t0 :: l2)
      = k_to_t_mapping key_f (l1 ++ l2) := by
    simp [k_to_t_mapping, List.filterMap_append, List.filterMap_cons, hpair]
  have heq : disjoint_by_filter_map key_f threshold (l1 ++ t0 :: l2)
      = disjoint_by_filter_map key_f threshold (l1 ++ l2) := by
    unfold disjoint_by_filter_map
    rw [hmap]
  refine ⟨heq, ?_⟩
  intro k hlen
  rw [heq]
  have hne : classOf key_f k (l1 ++ l2) ≠ [] := by
    intro hnil
    rw [hnil] at hlen
    exact Nat.not_lt_zero threshold hlen
  rcases List.exists_mem_of_ne_nil _ hne with ⟨t, htc⟩
  rcases mem_classOf.mp htc with ⟨hti, hok⟩
  exact classOf_mem_disjoint_by_filter_map ⟨t, hti, hok⟩ hlen

/-- Closed instance of C8: inserting the failing item `"bad"` between
`"aa"` and `"bb"` changes nothing, and their group is still emitted. -/
theorem C8_failure_isolation_witness :
    disjoint_by_filter_map exKey 1 (["aa"] ++ "bad" :: ["bb"])
      = disjoint_by_filter_map exKey 1 (["aa"] ++ ["bb"])
    ∧ classOf exKey 2 (["aa"] ++ ["bb"])
        ∈ disjoint_by_filter_map exKey 1 (["aa"] ++ "bad" :: ["bb"]) :=
  ⟨(C8_failure_isolation exKey 1 ["aa"] ["bb"] "bad"
      (fun k hk => by simp [exKey] at hk)).1,
   (C8_failure_isolation exKey 1 ["aa"] ["bb"] "bad"
      (fun k hk => by simp [exKey] at hk)).2 2 (by decide)⟩

/-- C4. The extractor `checksum` returns `Fail(message)` — a reported per-item failure
(`some (.error (some msg))`) — when opening the file fails; a read error
after a successful open is fatal for the whole run: the call panics (the
`none` result), and whenever the affected path belongs to a surviving size
group the pipeline aborts with an error; on success `checksum` returns `Ok`
with the digest of the full content of the file. -/
theorem C4_checksum_error_policy (sha512 : List Nat → List Nat)
    (fs : FileSys) (p : String) :
    ((fs p).openOk = false →
      checksum sha512 fs p = some (.error (some (fs p).openMsg)))
    ∧ ((fs p).openOk = true → (fs p).readOk = false →
      checksum sha512 fs p = none
      ∧ ∀ (sv : Bool) (entries : List String),
          p ∈ (sizePass fs entries).flatten →
          ∃ m, duplicate_files sha512 fs sv entries = .error m)
    ∧ ((fs p).openOk = true → (fs p).readOk = true →
      checksum sha512 fs p = some (.ok (sha512 (fs p).content))) := by
  refine ⟨?_, ?_, ?_⟩
  · intro h
    simp [checksum, h]
  · intro h1 h2
    have hn : checksum sha512 fs p = none := by simp [checksum, h1, h2]
    exact ⟨hn, fun sv entries hp => duplicate_files_panics hp hn⟩
  · intro h1 h2
    exact checksum_of_readable h1 h2

/-- Closed instance of C4 on the example filesystem: an unopenable file
fails softly, a mid-read failure panics and aborts a run that reaches it,
and a readable file digests its full content. -/
theorem C4_checksum_error_policy_witness :
    checksum exSha exFS "locked" = some (.error (some "open denied"))
    ∧ checksum exSha exFS "torn" = none
    ∧ (∃ m, duplicate_files exSha exFS false ["g1", "g2", "torn"] = .error m)
    ∧ checksum exSha exFS "g1" = some (.ok (exSha [1, 2, 3, 4, 5])) :=
  ⟨(C4_checksum_error_policy exSha exFS "locked").1 (by decide),
   ((C4_checksum_error_policy exSha exFS "torn").2.1 (by decide) (by decide)).1,
   ((C4_checksum_error_policy exSha exFS "torn").2.1 (by decide) (by decide)).2
     false ["g1", "g2", "torn"] (by decide),
   (C4_checksum_error_policy exSha exFS "g1").2.2 (by decide) (by decide)⟩

/-- C6. The size extractor returns `Ok(byte length)` when the entry is a
regular file with readable metadata, `Skip` (`Err(None)`) when the entry
exists but is not a regular file, and `Fail(message)` (`Err(Some)`) when the
metadata cannot be read. -/
theorem C6_filesize_cases (fs : FileSys) (p : String) :
    ((fs p).metaOk = true → (fs p).isFile = true →
      filesize fs p = .ok ((fs p).len))
    ∧ ((fs p).metaOk = true → (fs p).isFile = false →
      filesize fs p = .error none)
    ∧ ((fs p).metaOk = false →
      filesize fs p = .error (some (fs p).metaMsg)) := by
  refine ⟨?_, ?_, ?_⟩
  · intro h1 h2
    simp [filesize, h1, h2]
  · intro h1 h2
    simp [filesize, h1, h2]
  · intro h1
    simp [filesize, h1]

/-- Closed instance of C6 on the example filesystem: a regular file, a
directory and an entry with unreadable metadata. -/
theorem C6_filesize_cases_witness :
    filesize exFS "g1" = .ok 5
    ∧ filesize exFS "dir" = .error none
    ∧ filesize exFS "ghost" = .error (some "no metadata") :=
  ⟨(C6_filesize_cases exFS "g1").1 (by decide) (by decide),
   (C6_filesize_cases exFS "dir").2.1 (by decide) (by decide),
   (C6_filesize_cases exFS "ghost").2.2 (by decide)⟩

/-- C7. The extractor `checksum` is deterministic: two successful runs over files with
identical byte content — possibly at different paths and in different
filesystem states, including identical empty content — yield an identical
digest, namely the digest function applied to the full content. -/
theorem C7_checksum_deterministic (sha512 : List Nat → List Nat)
    (fs1 fs2 : FileSys) (p1 p2 : String)
    (h1 : (fs1 p1).openOk = true) (h2 : (fs1 p1).readOk = true)
    (h3 : (fs2 p2).openOk = true) (h4 : (fs2 p2).readOk = true)
    (hc : (fs1 p1).content = (fs2 p2).content) :
    checksum sha512 fs1 p1 = checksum sha512 fs2 p2
    ∧ checksum sha512 fs1 p1 = some (.ok (sha512 (fs1 p1).content)) := by
  have e1 := @checksum_of_readable sha512 fs1 p1 h1 h2
  have e2 := @checksum_of_readable sha512 fs2 p2 h3 h4
  constructor
  · rw [e1, e2, hc]
  · exact e1

/-- Closed instance of C7: the two example files with the same content
digest identically, and the empty files digest to the digest of `[]`. -/
theorem C7_checksum_deterministic_witness :
    checksum exSha exFS "g1" = checksum exSha exFS "h1"
    ∧ checksum exSha exFS "f1" = some (.ok (exSha [])) :=
  ⟨(C7_checksum_deterministic exSha exFS exFS "g1" "h1" (by decide) (by decide)
      (by decide) (by decide) (by decide)).1,
   (C7_checksum_deterministic exSha exFS exFS "f1" "f2" (by decide) (by decide)
      (by decide) (by decide) (by decide)).2⟩

/-- Membership in a final group is unaffected by the optional sort. -/
theorem mem_sortOpt {sv : Bool} {v : List String} {p : String} :
    p ∈ (if sv then sortGroup v else v) ↔ p ∈ v := by
  cases sv
  · simp
  · simp [sortGroup,
      (List.perm_insertionSort (fun a b : String => a.data ≤ b.data) v).mem_iff]

/-- C2. For files whose key extractions succeed, the full pipeline never
places two files with equal size but different content in the same final
group — provided the digest function is injective, the idealisation of
SHA-512 being collision-free — and always places two files with equal size
and byte-identical content in the same final group (their size class and
hash class each have at least two members, witnessed by the two files
themselves). -/
theorem C2_size_then_hash (sha512 : List Nat → List Nat)
    (hinj : Function.Injective sha512) (fs : FileSys) (sv : Bool)
    (entries : List String) (out : List (List String))
    (hrun : duplicate_files sha512 fs sv entries = .ok out)
    (p1 p2 : String)
    (ho1 : (fs p1).openOk = true) (hr1 : (fs p1).readOk = true)
    (ho2 : (fs p2).openOk = true) (hr2 : (fs p2).readOk = true) :
    ((fs p1).len = (fs p2).len → (fs p1).content ≠ (fs p2).content →
      ¬ ∃ g ∈ out, p1 ∈ g ∧ p2 ∈ g)
    ∧ (p1 ≠ p2 → p1 ∈ entries → p2 ∈ entries →
      (fs p1).metaOk = true → (fs p1).isFile = true →
      (fs p2).metaOk = true → (fs p2).isFile = true →
      (fs p1).len = (fs p2).len → (fs p1).content = (fs p2).content →
      ∃ g ∈ out, p1 ∈ g ∧ p2 ∈ g) := by
  have hout := duplicate_files_ok hrun
  constructor
  · rintro hlen hneq ⟨g, hg, hp1, hp2⟩
    rw [hout] at hg
    rcases List.mem_map.mp hg with ⟨h0, hh0, rfl⟩
    have hm1 : p1 ∈ h0 := mem_sortOpt.mp hp1
    have hm2 : p2 ∈ h0 := mem_sortOpt.mp hp2
    rcases List.mem_flatMap.mp hh0 with ⟨set, hset, hh0m⟩
    rcases mem_disjoint_by_filter_map.mp hh0m with ⟨d, -, rfl, -⟩
    have k1 := (mem_classOf.mp hm1).2
    have k2 := (mem_classOf.mp hm2).2
    rcases okKey_checksumKey.mp k1 with ⟨-, -, hd1⟩
    rcases okKey_checksumKey.mp k2 with ⟨-, -, hd2⟩
    exact hneq (hinj (hd1.symm.trans hd2))
  · intro hne h1e h2e hm1 hf1 hm2 hf2 hlen hc
    have hok1 : okKey (filesize fs) p1 = some ((fs p1).len) :=
      okKey_filesize.mpr ⟨hm1, hf1, rfl⟩
    have hok2 : okKey (filesize fs) p2 = some ((fs p1).len) := by
      rw [hlen]
      exact okKey_filesize.mpr ⟨hm2, hf2, rfl⟩
    have hc1 : p1 ∈ classOf (filesize fs) ((fs p1).len) entries :=
      mem_classOf.mpr ⟨h1e, hok1⟩
    have hc2 : p2 ∈ classOf (filesize fs) ((fs p1).len) entries :=
      mem_classOf.mpr ⟨h2e, hok2⟩
    have hgp : classOf (filesize fs) ((fs p1).len) entries ∈ sizePass fs entries :=
      classOf_mem_disjoint_by_filter_map ⟨p1, h1e, hok1⟩
        (one_lt_length_of_mem_ne hc1 hc2 hne)
    have hok1h : okKey (checksumKey sha512 fs) p1
        = some (sha512 ((fs p1).content)) :=
      okKey_checksumKey.mpr ⟨ho1, hr1, rfl⟩
    have hok2h : okKey (checksumKey sha512 fs) p2
        = some (sha512 ((fs p1).content)) :=
      okKey_checksumKey.mpr ⟨ho2, hr2, by rw [hc]⟩
    have hd1 : p1 ∈ classOf (checksumKey sha512 fs) (sha512 ((fs p1).content))
        (classOf (filesize fs) ((fs p1).len) entries) :=
      mem_classOf.mpr ⟨hc1, hok1h⟩
    have hd2 : p2 ∈ classOf (checksumKey sha512 fs) (sha512 ((fs p1).content))
        (classOf (filesize fs) ((fs p1).len) entries) :=
      mem_classOf.mpr ⟨hc2, hok2h⟩
    have hh : classOf (checksumKey sha512 fs) (sha512 ((fs p1).content))
        (classOf (filesize fs) ((fs p1).len) entries)
          ∈ disjoint_by_filter_map (checksumKey sha512 fs) 1
            (classOf (filesize fs) ((fs p1).len) entries) :=
      classOf_mem_disjoint_by_filter_map ⟨p1, hc1, hok1h⟩
        (one_lt_length_of_mem_ne hd1 hd2 hne)
    refine ⟨(if sv then sortGroup (classOf (checksumKey sha512 fs)
        (sha512 ((fs p1).content))
        (classOf (filesize fs) ((fs p1).len) entries))
      else (classOf (checksumKey sha512 fs) (sha512 ((fs p1).content))
        (classOf (filesize fs) ((fs p1).len) entries))), ?_,
      mem_sortOpt.mpr hd1, mem_sortOpt.mpr hd2⟩
    rw [hout]
    exact List.mem_map.mpr ⟨_, List.mem_flatMap.mpr ⟨_, hgp, hh⟩, rfl⟩

/-- Closed instance of C2 on the example filesystem: `g1` and `g2` share a
size but not content and never share a group; `g1` and `h1` share size and
content and do. -/
theorem C2_size_then_hash_witness :
    (¬ ∃ g ∈ [["g1", "h1"]], "g1" ∈ g ∧ "g2" ∈ g)
    ∧ (∃ g ∈ [["g1", "h1"]], "g1" ∈ g ∧ "h1" ∈ g) :=
  ⟨(C2_size_then_hash exSha (fun a b h => h) exFS false ["g1", "g2", "h1"]
      [["g1", "h1"]] (by decide) "g1" "g2" (by decide) (by decide) (by decide)
      (by decide)).1 (by decide) (by decide),
   (C2_size_then_hash exSha (fun a b h => h) exFS false ["g1", "g2", "h1"]
      [["g1", "h1"]] (by decide) "g1" "h1" (by decide) (by decide) (by decide)
      (by decide)).2 (by decide) (by decide) (by decide) (by decide) (by decide)
      (by decide) (by decide) (by decide) (by decide)⟩

/-- C9. Re-running the pipeline over an unmodified tree yields the same
set of groups, and with the sort option set the member order within each
group is identical across runs and lexicographic.  The only run-to-run
nondeterminism of the code is the iteration order of the grouping hash map,
which permutes the sequence of emitted groups but not their contents, so a
run is modelled as an arbitrary permutation `out` of the canonical result
`res`; any two such runs agree on the set of groups, and under the sort
option every group of every run is sorted (hence its member order is the
same in both runs). -/
theorem C9_deterministic_reruns (sha512 : List Nat → List Nat) (fs : FileSys)
    (sv : Bool) (entries : List String) (res out1 out2 : List (List String))
    (hrun : duplicate_files sha512 fs sv entries = .ok res)
    (h1 : List.Perm out1 res) (h2 : List.Perm out2 res) :
    (∀ g, g ∈ out1 ↔ g ∈ out2)
    ∧ (sv = true → ∀ g ∈ out1,
        List.Sorted (fun a b : String => a.data ≤ b.data) g) := by
  constructor
  · intro g
    rw [h1.mem_iff, h2.mem_iff]
  · rintro rfl g hg
    have hg2 : g ∈ res := h1.mem_iff.mp hg
    rw [duplicate_files_ok hrun] at hg2
    rcases List.mem_map.mp hg2 with ⟨h0, -, rfl⟩
    haveI ht : IsTotal String (fun a b : String => a.data ≤ b.data) :=
      ⟨fun a b => le_total a.data b.data⟩
    haveI htr : IsTrans String (fun a b : String => a.data ≤ b.data) :=
      ⟨fun a b c => le_trans⟩
    simpa [sortGroup] using
      List.sorted_insertionSort (fun a b : String => a.data ≤ b.data) h0

/-- Closed instance of C9: two permuted copies of a sorted-mode run over the
example filesystem agree on the set of groups, each group sorted. -/
theorem C9_deterministic_reruns_witness :
    (∀ g, g ∈ [["f1", "f2"], ["g1", "h1"]] ↔ g ∈ [["g1", "h1"], ["f1", "f2"]])
    ∧ (true = true → ∀ g ∈ [["f1", "f2"], ["g1", "h1"]],
        List.Sorted (fun a b : String => a.data ≤ b.data) g) :=
  C9_deterministic_reruns exSha exFS true ["f1", "f2", "g1", "g2", "h1"]
    [["f1", "f2"], ["g1", "h1"]] [["f1", "f2"], ["g1", "h1"]]
    [["g1", "h1"], ["f1", "f2"]] (by decide) (by decide) (by decide)

end Claims



